import Mathlib

/-!
Verification of the knight's-tour generator in `knights_tour.py`.

The board is a list of rows of integers, `-1` meaning UNVISITED, mirroring
the Python `List[List[int]]`.  Python subscripts `board[y][x]` are modelled
with their real semantics: a negative index within `[-len, 0)` wraps around,
and an index outside `[-len, len)` raises `IndexError`.  The process-wide
random source consumed by `random.shuffle(KNIGHT_MOVES)` is modelled as an
explicit stream `shuffles : Nat -> List (Int × Int)` giving the contents of
`KNIGHT_MOVES` right after the i-th shuffle call of the run.
-/

abbrev Board := List (List Int)

/-- Error raised by an out-of-range Python subscript. -/
inductive PyError where
  | indexError
deriving DecidableEq

/-- Lines 14-15: the fixed list of the 8 knight offsets. -/
def KNIGHT_MOVES : List (Int × Int) :=
  [(-2, -1), (-1, -2), (1, -2), (2, -1), (2, 1), (1, 2), (-1, 2), (-2, 1)]

/-- Python index normalisation for a list of length `len`: an index in
`[0, len)` is used as is, one in `[-len, 0)` wraps to `i + len`, anything
else raises `IndexError` (modelled as `none`). -/
def pyNorm (len : Nat) (i : Int) : Option Nat :=
  if 0 ≤ i ∧ i < (len : Int) then some i.toNat
  else if -(len : Int) ≤ i ∧ i < 0 then some (i + len).toNat
  else none

/-- Python read `board[y][x]` with real Python index semantics. -/
def pyGet2 (board : Board) (y x : Int) : Option Int :=
  match pyNorm board.length y with
  | none => none
  | some yi =>
    match board.get? yi with
    | none => none
    | some row =>
      match pyNorm row.length x with
      | none => none
      | some xi => row.get? xi

/-- Python write `board[y][x] = v` with real Python index semantics;
`none` models the `IndexError` raised on an out-of-range subscript. -/
def pySet2 (board : Board) (y x : Int) (v : Int) : Option Board :=
  match pyNorm board.length y with
  | none => none
  | some yi =>
    match board.get? yi with
    | none => none
    | some row =>
      match pyNorm row.length x with
      | none => none
      | some xi => some (board.set yi (row.set xi v))

/-- Reading a cell of an n×n board at in-range nonnegative coordinates
(used to state properties of returned boards). -/
def valAt (board : Board) (x y : Nat) : Int :=
  (board.getD y []).getD x (-2)

/-- Writing a cell at in-range nonnegative coordinates; used for the write
on line 49, which is always guarded by `is_valid`. -/
def setCell (board : Board) (x y : Nat) (v : Int) : Board :=
  board.set y ((board.getD y []).set x v)

/-- Lines 17-18: a destination is valid iff it is in bounds and its cell is
still `-1` (UNVISITED).  Short-circuiting makes the read safe in Python;
here the read returns an `Option` compared against `some (-1)`. -/
def is_valid (board_size : Nat) (x y : Int) (board : Board) : Bool :=
  decide (0 ≤ x) && decide (x < (board_size : Int)) && decide (0 ≤ y) &&
    decide (y < (board_size : Int)) && (pyGet2 board y x == some (-1))

/-- Lines 20-25: count the valid onward knight moves from `(x, y)`.  The
Python loop runs over the current (shuffled) contents of `KNIGHT_MOVES`,
passed here as `order`; the count does not depend on the order. -/
def count_onward_moves (board_size : Nat) (order : List (Int × Int))
    (x y : Int) (board : Board) : Nat :=
  order.countP (fun d => is_valid board_size (x + d.1) (y + d.2) board)

/-- Lines 37-43: the body of the candidate loop, updating the running
`(min_deg, next_move)` pair for one offset `d`: a candidate replaces the
current best only when its onward-degree is strictly smaller. -/
def selectStep (board_size : Nat) (order : List (Int × Int)) (x y : Int)
    (board : Board) (acc : Nat × Option (Int × Int)) (d : Int × Int) :
    Nat × Option (Int × Int) :=
  let nx := x + d.1
  let ny := y + d.2
  if is_valid board_size nx ny board then
    let deg := count_onward_moves board_size order nx ny board
    if deg < acc.1 then (deg, some (nx, ny)) else acc
  else acc

/-- Lines 34-43: scan the shuffled offsets keeping `(min_deg, next_move)`,
starting from `(9, None)`. -/
def chooseMove (board_size : Nat) (order : List (Int × Int)) (x y : Int)
    (board : Board) : Nat × Option (Int × Int) :=
  order.foldl (selectStep board_size order x y board) (9, none)

/-- Line 32: the move numbers 2, 3, ..., board_size², i.e.
`range(2, board_size * board_size + 1)`. -/
def movesRange (board_size : Nat) : List Nat :=
  List.range' 2 (board_size * board_size - 1)

/-- Lines 32-49: place the remaining move numbers `ms` starting from
`(x, y)`.  Each iteration consumes one shuffle (index `si`); a dead end
(line 45-46) abandons the attempt returning `none`, completion returns the
board (the `else: return board` on lines 50-51).  The result also carries
the next shuffle index. -/
def moveLoop (board_size : Nat) (shuffles : Nat → List (Int × Int)) :
    List Nat → Int → Int → Board → Nat → Option Board × Nat
  | [], _, _, board, si => (some board, si)
  | m :: ms, x, y, board, si =>
    let order := shuffles si
    match (chooseMove board_size order x y board).2 with
    | none => (none, si + 1)
    | some nm =>
      moveLoop board_size shuffles ms nm.1 nm.2
        (setCell board nm.1.toNat nm.2.toNat (m : Int)) (si + 1)

/-- Lines 28-51: one attempt.  A fresh all-`-1` board is allocated, the
start cell is written with `1` using real Python index semantics (line 30
performs no range check, so it may wrap or raise `IndexError`), then the
move loop runs. -/
def runAttempt (start_x start_y : Int) (board_size : Nat)
    (shuffles : Nat → List (Int × Int)) (si : Nat) :
    Except PyError (Option Board × Nat) :=
  let board0 : Board := List.replicate board_size (List.replicate board_size (-1))
  match pySet2 board0 start_y start_x 1 with
  | none => .error .indexError
  | some board => .ok (moveLoop board_size shuffles (movesRange board_size) start_x start_y board si)

/-- Lines 27 and 50-52: run up to the given number of attempts, returning
the first successful board, `none` after exhausting all attempts, or
propagating an uncaught `IndexError`. -/
def attemptLoop (start_x start_y : Int) (board_size : Nat)
    (shuffles : Nat → List (Int × Int)) :
    Nat → Nat → Except PyError (Option Board)
  | 0, _ => .ok none
  | k + 1, si =>
    match runAttempt start_x start_y board_size shuffles si with
    | .error e => .error e
    | .ok (some board, _) => .ok (some board)
    | .ok (none, si2) => attemptLoop start_x start_y board_size shuffles k si2

/-- Lines 13-52: `generate_knights_tour_nxn(start_x, start_y, board_size,
max_attempts)`.  `range(max_attempts)` is empty when `max_attempts ≤ 0`,
modelled by `Int.toNat`. -/
def generate_knights_tour_nxn (start_x start_y : Int) (board_size : Nat)
    (max_attempts : Int) (shuffles : Nat → List (Int × Int)) :
    Except PyError (Option Board) :=
  attemptLoop start_x start_y board_size shuffles max_attempts.toNat 0

/-- Lines 200-202 of `KnightTourGUI.start_tour`: the body of the scan, for
one cell `c = (x, y)`: when `move_num = board[y][x]` is positive, record
`(x, y)` at index `move_num - 1`. -/
def projStep (board : Board) (acc : List (Option (Nat × Nat))) (c : Nat × Nat) :
    List (Option (Nat × Nat)) :=
  let move_num := valAt board c.1 c.2
  if 0 < move_num then acc.set (move_num.toNat - 1) (some c) else acc

/-- Lines 197-202 of `KnightTourGUI.start_tour`: build `move_positions`,
a list of length `size * size` initialised with `None`, then scan every
cell once, row by row. -/
def move_positions (size : Nat) (board : Board) : List (Option (Nat × Nat)) :=
  (List.range size).foldl (fun acc y =>
    (List.range size).foldl (fun acc2 x => projStep board acc2 (x, y)) acc)
    (List.replicate (size * size) none)

/-- Scan order of the projection loop: all cells `(x, y)` with `y` the
outer index, mirroring the nested `for y ... for x ...`. -/
def scanCells (size : Nat) : List (Nat × Nat) :=
  (List.range size).flatMap (fun y => (List.range size).map (fun x => (x, y)))

/-- Two squares are a knight's move apart when their coordinate difference
is one of the 8 offsets. -/
def knightAdj (p q : Nat × Nat) : Prop :=
  ((q.1 : Int) - (p.1 : Int), (q.2 : Int) - (p.2 : Int)) ∈ KNIGHT_MOVES

/-- Search-loop invariant: `pos` lists the coordinates of moves
`1, ..., pos.length` in order; the board holds exactly those values on
exactly those cells, every other cell being `-1`. -/
structure TourInv (board_size : Nat) (board : Board) (pos : List (Nat × Nat)) : Prop where
  hlen : board.length = board_size
  hrow : ∀ row ∈ board, row.length = board_size
  hcount : ∀ v : Int, board.flatten.count v =
    (if 1 ≤ v ∧ v ≤ (pos.length : Int) then 1
     else if v = -1 then board_size * board_size - pos.length else 0)
  hposB : ∀ p ∈ pos, p.1 < board_size ∧ p.2 < board_size
  hposV : ∀ i (h : i < pos.length), valAt board (pos.get ⟨i, h⟩).1 (pos.get ⟨i, h⟩).2 = (i : Int) + 1
  hchain : pos.Chain' knightAdj

/-- One step of the attempt sequence: the shuffle index after running one
attempt from shuffle index `si` (unchanged if the attempt raised). -/
def siStep (start_x start_y : Int) (board_size : Nat)
    (shuffles : Nat → List (Int × Int)) (si : Nat) : Nat :=
  match runAttempt start_x start_y board_size shuffles si with
  | .ok (_, si2) => si2
  | .error _ => si

/-- Shuffle index at which attempt `i` starts. -/
def siSeq (start_x start_y : Int) (board_size : Nat)
    (shuffles : Nat → List (Int × Int)) (i : Nat) : Nat :=
  (siStep start_x start_y board_size shuffles)^[i] 0

theorem pyNorm_eq_none_iff (len : Nat) (i : Int) :
    pyNorm len i = none ↔ i < -(len : Int) ∨ (len : Int) ≤ i := by
  unfold pyNorm
  split_ifs with h1 h2 <;> simp <;> omega

theorem pyNorm_lt {len : Nat} {i : Int} {j : Nat} (h : pyNorm len i = some j) :
    j < len := by
  unfold pyNorm at h
  split_ifs at h with h1 h2 <;> simp at h <;> omega

/-- C9: generate is deterministic relative to its random source: two calls
with identical inputs and pointwise-identical shuffle streams return
identical results. -/
theorem generate_deterministic (start_x start_y : Int) (board_size : Nat)
    (max_attempts : Int) (s1 s2 : Nat → List (Int × Int))
    (h : ∀ i, s1 i = s2 i) :
    generate_knights_tour_nxn start_x start_y board_size max_attempts s1 =
      generate_knights_tour_nxn start_x start_y board_size max_attempts s2 := by
  have hs : s1 = s2 := funext h
  rw [hs]

theorem generate_deterministic_witness :
    generate_knights_tour_nxn 0 0 8 100 (fun _ => KNIGHT_MOVES) =
      generate_knights_tour_nxn 0 0 8 100 (fun _ => KNIGHT_MOVES) :=
  generate_deterministic 0 0 8 100 (fun _ => KNIGHT_MOVES) (fun _ => KNIGHT_MOVES)
    (fun _ => rfl)

/-- C10: with `max_attempts ≤ 0` the attempt loop body never runs
(`range(max_attempts)` is empty) and the call returns FAILURE (`None`)
immediately, for every start and board size. -/
theorem generate_nonpositive_attempts (start_x start_y : Int) (board_size : Nat)
    (max_attempts : Int) (shuffles : Nat → List (Int × Int))
    (hk : max_attempts ≤ 0) :
    generate_knights_tour_nxn start_x start_y board_size max_attempts shuffles = .ok none := by
  unfold generate_knights_tour_nxn
  have h0 : max_attempts.toNat = 0 := Int.toNat_of_nonpos hk
  rw [h0]
  rfl

theorem generate_nonpositive_attempts_witness :
    generate_knights_tour_nxn 3 4 8 (-2) (fun _ => KNIGHT_MOVES) = .ok none :=
  generate_nonpositive_attempts 3 4 8 (-2) (fun _ => KNIGHT_MOVES) (by decide)

/-- C7: on a 1×1 board the start cell is marked 1, the move loop is empty,
and the first attempt already succeeds, returning `[[1]]` and consuming no
shuffle (no move is attempted), whatever the random source does. -/
theorem generate_trivial_board (shuffles : Nat → List (Int × Int)) :
    generate_knights_tour_nxn 0 0 1 100 shuffles = .ok (some [[1]]) ∧
      runAttempt 0 0 1 shuffles 0 = .ok (some [[1]], 0) :=
  ⟨rfl, rfl⟩

/-- C1 counterexample: the claimed `InvalidStart` rejection does not exist.
On a 1×1 board the out-of-range start `(-1, 0)` is accepted: Python's
negative indexing wraps `board[0][-1]` to the single cell, the attempt is
run and SUCCEEDS, returning the board `[[1]]` instead of failing. -/
theorem generate_neg_start_succeeds :
    generate_knights_tour_nxn (-1) 0 1 1 (fun _ => KNIGHT_MOVES) = .ok (some [[1]]) :=
  rfl

theorem runAttempt_indexError (start_x start_y : Int) (board_size : Nat)
    (shuffles : Nat → List (Int × Int)) (si : Nat)
    (h : start_y < -(board_size : Int) ∨ (board_size : Int) ≤ start_y ∨
         start_x < -(board_size : Int) ∨ (board_size : Int) ≤ start_x) :
    runAttempt start_x start_y board_size shuffles si = .error .indexError := by
  have hset : pySet2 (List.replicate board_size (List.replicate board_size (-1)))
      start_y start_x 1 = none := by
    unfold pySet2
    simp only [List.length_replicate]
    by_cases hy : start_y < -(board_size : Int) ∨ (board_size : Int) ≤ start_y
    · have h1 : pyNorm board_size start_y = none := (pyNorm_eq_none_iff _ _).mpr hy
      simp only [h1]
    · obtain ⟨yi, hyi⟩ : ∃ yi, pyNorm board_size start_y = some yi := by
        cases hcase : pyNorm board_size start_y with
        | none => exact absurd ((pyNorm_eq_none_iff _ _).mp hcase) hy
        | some yi => exact ⟨yi, rfl⟩
      have hyilt : yi < board_size := pyNorm_lt hyi
      have hxout : pyNorm board_size start_x = none := by
        apply (pyNorm_eq_none_iff _ _).mpr
        rcases h with h | h | h | h
        · exact absurd (Or.inl h) hy
        · exact absurd (Or.inr h) hy
        · exact Or.inl h
        · exact Or.inr h
      simp only [hyi, List.get?_eq_getElem?, List.getElem?_replicate, hyilt, if_true,
        List.length_replicate, hxout]
  unfold runAttempt
  simp only [hset]

/-- C1 amended: the code performs no start validation.  A start coordinate
outside Python's indexable range `[-board_size, board_size)` on either axis
raises an uncaught `IndexError` on the write `board[y][x] = 1` (for any
positive attempt budget); coordinates in `[-board_size, 0)` are silently
wrapped by Python indexing and the search proceeds. -/
theorem generate_out_of_range_start_indexError (start_x start_y : Int)
    (board_size : Nat) (max_attempts : Int) (shuffles : Nat → List (Int × Int))
    (hk : 1 ≤ max_attempts)
    (h : start_y < -(board_size : Int) ∨ (board_size : Int) ≤ start_y ∨
         start_x < -(board_size : Int) ∨ (board_size : Int) ≤ start_x) :
    generate_knights_tour_nxn start_x start_y board_size max_attempts shuffles =
      .error .indexError := by
  unfold generate_knights_tour_nxn
  obtain ⟨m, hm⟩ : ∃ m, max_attempts.toNat = m + 1 := ⟨max_attempts.toNat - 1, by omega⟩
  rw [hm]
  unfold attemptLoop
  rw [runAttempt_indexError start_x start_y board_size shuffles 0 h]

theorem generate_out_of_range_start_indexError_witness :
    generate_knights_tour_nxn 0 8 8 100 (fun _ => KNIGHT_MOVES) = .error .indexError :=
  generate_out_of_range_start_indexError 0 8 8 100 (fun _ => KNIGHT_MOVES)
    (by decide) (by right; left; decide)

theorem selectFold_spec (bs : Nat) (order : List (Int × Int)) (x y : Int) (b : Board) :
    ∀ (l : List (Int × Int)) (acc : Nat × Option (Int × Int)),
      (l.foldl (selectStep bs order x y b) acc = acc ∧
        ∀ d ∈ l, is_valid bs (x + d.1) (y + d.2) b = true →
          acc.1 ≤ count_onward_moves bs order (x + d.1) (y + d.2) b) ∨
      (∃ l₁ d l₂, l = l₁ ++ d :: l₂ ∧
        is_valid bs (x + d.1) (y + d.2) b = true ∧
        count_onward_moves bs order (x + d.1) (y + d.2) b < acc.1 ∧
        (∀ e ∈ l₁, is_valid bs (x + e.1) (y + e.2) b = true →
          count_onward_moves bs order (x + d.1) (y + d.2) b <
            count_onward_moves bs order (x + e.1) (y + e.2) b) ∧
        (∀ e ∈ l₂, is_valid bs (x + e.1) (y + e.2) b = true →
          count_onward_moves bs order (x + d.1) (y + d.2) b ≤
            count_onward_moves bs order (x + e.1) (y + e.2) b) ∧
        l.foldl (selectStep bs order x y b) acc =
          (count_onward_moves bs order (x + d.1) (y + d.2) b, some (x + d.1, y + d.2))) := by
  intro l
  induction l with
  | nil =>
    intro acc
    left
    exact ⟨rfl, by simp⟩
  | cons d l ih =>
    intro acc
    rw [List.foldl_cons]
    by_cases hv : is_valid bs (x + d.1) (y + d.2) b = true
    · by_cases hlt : count_onward_moves bs order (x + d.1) (y + d.2) b < acc.1
      · have hstep : selectStep bs order x y b acc d =
            (count_onward_moves bs order (x + d.1) (y + d.2) b, some (x + d.1, y + d.2)) := by
          simp [selectStep, hv, hlt]
        rw [hstep]
        rcases ih (count_onward_moves bs order (x + d.1) (y + d.2) b, some (x + d.1, y + d.2))
          with ⟨heq, hmin⟩ | ⟨l₁, d', l₂, hdec, hv', hlt', hpre, hsuf, hres⟩
        · right
          refine ⟨[], d, l, rfl, hv, hlt, by simp, ?_, heq⟩
          intro e he hev
          exact hmin e he hev
        · right
          refine ⟨d :: l₁, d', l₂, by rw [hdec]; rfl, hv', lt_trans hlt' hlt, ?_, hsuf, hres⟩
          intro e he hev
          rcases List.mem_cons.mp he with he | he
          · subst he
            exact hlt'
          · exact hpre e he hev
      · have hstep : selectStep bs order x y b acc d = acc := by
          simp [selectStep, hv, hlt]
        rw [hstep]
        rcases ih acc with ⟨heq, hmin⟩ | ⟨l₁, d', l₂, hdec, hv', hlt', hpre, hsuf, hres⟩
        · left
          refine ⟨heq, ?_⟩
          intro e he hev
          rcases List.mem_cons.mp he with he | he
          · subst he
            omega
          · exact hmin e he hev
        · right
          refine ⟨d :: l₁, d', l₂, by rw [hdec]; rfl, hv', hlt', ?_, hsuf, hres⟩
          intro e he hev
          rcases List.mem_cons.mp he with he | he
          · subst he
            omega
          · exact hpre e he hev
    · have hstep : selectStep bs order x y b acc d = acc := by
        simp [selectStep, hv]
      rw [hstep]
      rcases ih acc with ⟨heq, hmin⟩ | ⟨l₁, d', l₂, hdec, hv', hlt', hpre, hsuf, hres⟩
      · left
        refine ⟨heq, ?_⟩
        intro e he hev
        rcases List.mem_cons.mp he with he | he
        · subst he
          exact absurd hev hv
        · exact hmin e he hev
      · right
        refine ⟨d :: l₁, d', l₂, by rw [hdec]; rfl, hv', hlt', ?_, hsuf, hres⟩
        intro e he hev
        rcases List.mem_cons.mp he with he | he
        · subst he
          exact absurd hev hv
        · exact hpre e he hev

theorem chooseMove_spec (bs : Nat) (order : List (Int × Int)) (x y : Int)
    (b : Board) (nm : Int × Int) (h : (chooseMove bs order x y b).2 = some nm) :
    ∃ l₁ d l₂, order = l₁ ++ d :: l₂ ∧ nm = (x + d.1, y + d.2) ∧
      is_valid bs nm.1 nm.2 b = true ∧
      (∀ e ∈ order, is_valid bs (x + e.1) (y + e.2) b = true →
        count_onward_moves bs order nm.1 nm.2 b ≤
          count_onward_moves bs order (x + e.1) (y + e.2) b) ∧
      (∀ e ∈ l₁, is_valid bs (x + e.1) (y + e.2) b = true →
        count_onward_moves bs order nm.1 nm.2 b <
          count_onward_moves bs order (x + e.1) (y + e.2) b) := by
  rcases selectFold_spec bs order x y b order (9, none)
    with ⟨heq, _⟩ | ⟨l₁, d, l₂, hdec, hv, _, hpre, hsuf, hres⟩
  · rw [chooseMove, heq] at h
    exact absurd h (by simp)
  · rw [chooseMove, hres] at h
    have hnm : nm = (x + d.1, y + d.2) := by
      simpa using h.symm
    subst hnm
    refine ⟨l₁, d, l₂, hdec, rfl, hv, ?_, hpre⟩
    intro e he hev
    rw [hdec] at he
    rcases List.mem_append.mp he with he | he
    · exact le_of_lt (hpre e he hev)
    · rcases List.mem_cons.mp he with he | he
      · subst he
        exact le_refl _
      · exact hsuf e he hev

theorem chooseMove_valid (bs : Nat) (order : List (Int × Int)) (x y : Int)
    (b : Board) (nm : Int × Int) (h : (chooseMove bs order x y b).2 = some nm) :
    is_valid bs nm.1 nm.2 b = true ∧ ∃ d ∈ order, nm = (x + d.1, y + d.2) := by
  rcases chooseMove_spec bs order x y b nm h with ⟨l₁, d, l₂, hdec, hnm, hv, _, _⟩
  exact ⟨hv, d, by rw [hdec]; simp, hnm⟩

/-- C5: whenever the candidate scan selects a destination, that destination
is a valid candidate (in-bounds and unvisited), its onward-degree computed
against the current board is minimal among all valid candidates reachable
through the scanned offset order, and it is the first candidate in that
order achieving the minimum (every valid candidate strictly before it has
strictly larger degree).  The move loop performs exactly this scan at every
move step of every attempt. -/
theorem chooseMove_warnsdorff (bs : Nat) (order : List (Int × Int)) (x y : Int)
    (b : Board) (nm : Int × Int) (h : (chooseMove bs order x y b).2 = some nm) :
    ∃ l₁ d l₂, order = l₁ ++ d :: l₂ ∧ nm = (x + d.1, y + d.2) ∧
      is_valid bs nm.1 nm.2 b = true ∧
      (∀ e ∈ order, is_valid bs (x + e.1) (y + e.2) b = true →
        count_onward_moves bs order nm.1 nm.2 b ≤
          count_onward_moves bs order (x + e.1) (y + e.2) b) ∧
      (∀ e ∈ l₁, is_valid bs (x + e.1) (y + e.2) b = true →
        count_onward_moves bs order nm.1 nm.2 b <
          count_onward_moves bs order (x + e.1) (y + e.2) b) :=
  chooseMove_spec bs order x y b nm h

theorem chooseMove_warnsdorff_witness :
    ∃ l₁ d l₂, KNIGHT_MOVES = l₁ ++ d :: l₂ ∧
      ((2 : Int), (1 : Int)) = (0 + d.1, 0 + d.2) ∧
      is_valid 3 (2 : Int) (1 : Int) [[1, -1, -1], [-1, -1, -1], [-1, -1, -1]] = true ∧
      (∀ e ∈ KNIGHT_MOVES,
        is_valid 3 (0 + e.1) (0 + e.2) [[1, -1, -1], [-1, -1, -1], [-1, -1, -1]] = true →
        count_onward_moves 3 KNIGHT_MOVES (2 : Int) (1 : Int)
            [[1, -1, -1], [-1, -1, -1], [-1, -1, -1]] ≤
          count_onward_moves 3 KNIGHT_MOVES (0 + e.1) (0 + e.2)
            [[1, -1, -1], [-1, -1, -1], [-1, -1, -1]]) ∧
      (∀ e ∈ l₁,
        is_valid 3 (0 + e.1) (0 + e.2) [[1, -1, -1], [-1, -1, -1], [-1, -1, -1]] = true →
        count_onward_moves 3 KNIGHT_MOVES (2 : Int) (1 : Int)
            [[1, -1, -1], [-1, -1, -1], [-1, -1, -1]] <
          count_onward_moves 3 KNIGHT_MOVES (0 + e.1) (0 + e.2)
            [[1, -1, -1], [-1, -1, -1], [-1, -1, -1]]) :=
  chooseMove_warnsdorff 3 KNIGHT_MOVES 0 0
    [[1, -1, -1], [-1, -1, -1], [-1, -1, -1]] (2, 1) (by decide)

theorem getD_lt_eq {α : Type} (l : List α) (i : Nat) (d1 d2 : α) (h : i < l.length) :
    l.getD i d1 = l.getD i d2 := by
  simp [List.getD_eq_getElem?_getD, List.getElem?_eq_getElem h]

theorem getD_mem {α : Type} (l : List α) (i : Nat) (d : α) (h : i < l.length) :
    l.getD i d ∈ l := by
  rw [List.getD_eq_getElem?_getD, List.getElem?_eq_getElem h]
  exact List.getElem_mem h

theorem count_set_int : ∀ (l : List Int) (i : Nat) (v w : Int), i < l.length →
    (l.set i v).count w + (if l.getD i (-2) = w then 1 else 0) =
      l.count w + (if v = w then 1 else 0)
  | [], i, v, w, h => absurd h (by simp)
  | a :: t, 0, v, w, _ => by
      simp only [List.set_cons_zero, List.count_cons, List.getD_cons_zero, beq_iff_eq]
      split_ifs <;> omega
  | a :: t, i + 1, v, w, h => by
      have ih := count_set_int t i v w (by simpa using h)
      simp only [List.set_cons_succ, List.count_cons, List.getD_cons_succ, beq_iff_eq]
      split_ifs at ih ⊢ <;> omega

theorem flatten_count_setCell : ∀ (b : Board) (y x : Nat) (v w : Int),
    y < b.length → x < (b.getD y []).length →
    (setCell b x y v).flatten.count w + (if valAt b x y = w then 1 else 0) =
      b.flatten.count w + (if v = w then 1 else 0)
  | [], y, x, v, w, hy, _ => absurd hy (by simp)
  | row :: rest, 0, x, v, w, _, hx => by
      have hx2 : x < row.length := by simpa using hx
      have key := count_set_int row x v w hx2
      simp only [setCell, valAt, List.getD_cons_zero, List.set_cons_zero,
        List.flatten_cons, List.count_append]
      split_ifs at key ⊢ <;> omega
  | row :: rest, y + 1, x, v, w, hy, hx => by
      have hy2 : y < rest.length := by simpa using hy
      have hx2 : x < (rest.getD y []).length := by simpa using hx
      have ih := flatten_count_setCell rest y x v w hy2 hx2
      simp only [setCell, valAt, List.getD_cons_succ, List.set_cons_succ,
        List.flatten_cons, List.count_append] at ih ⊢
      split_ifs at ih ⊢ <;> omega

theorem setCell_length (b : Board) (x y : Nat) (v : Int) :
    (setCell b x y v).length = b.length := by
  simp [setCell]

theorem setCell_rows (n : Nat) (b : Board) (x y : Nat) (v : Int) (hy : y < b.length)
    (hrow : ∀ row ∈ b, row.length = n) : ∀ row ∈ setCell b x y v, row.length = n := by
  intro row hr
  rcases List.mem_or_eq_of_mem_set hr with h | h
  · exact hrow row h
  · subst h
    rw [List.length_set]
    exact hrow _ (getD_mem b y [] hy)

theorem getD_set_self {α : Type} (l : List α) (i : Nat) (v d : α) (h : i < l.length) :
    (l.set i v).getD i d = v := by
  rw [List.getD_eq_getElem?_getD, List.getElem?_eq_getElem (by simpa using h)]
  simp [List.getElem_set_self]

theorem getD_set_ne {α : Type} (l : List α) (i j : Nat) (v d : α) (h : i ≠ j) :
    (l.set i v).getD j d = l.getD j d := by
  rw [List.getD_eq_getElem?_getD, List.getD_eq_getElem?_getD,
    ← List.get?_eq_getElem?, ← List.get?_eq_getElem?, List.get?_set_ne _ _ h]

theorem valAt_setCell_self (b : Board) (x y : Nat) (v : Int) (hy : y < b.length)
    (hx : x < (b.getD y []).length) : valAt (setCell b x y v) x y = v := by
  unfold valAt setCell
  rw [getD_set_self b y ((b.getD y []).set x v) [] hy]
  exact getD_set_self (b.getD y []) x v (-2) hx

theorem valAt_setCell_ne (b : Board) (x y x2 y2 : Nat) (v : Int)
    (h : (x2, y2) ≠ (x, y)) :
    valAt (setCell b x y v) x2 y2 = valAt b x2 y2 := by
  by_cases hy : y2 = y
  · subst hy
    have hx : x ≠ x2 := by
      intro he
      exact h (by rw [he])
    by_cases hylen : y2 < b.length
    · unfold valAt setCell
      rw [getD_set_self b y2 ((b.getD y2 []).set x v) [] hylen]
      exact getD_set_ne (b.getD y2 []) x x2 v (-2) hx
    · unfold valAt setCell
      rw [List.set_eq_of_length_le (by omega)]
  · unfold valAt setCell
    rw [getD_set_ne b y y2 ((b.getD y []).set x v) [] (fun he => hy he.symm)]

theorem valAt_replicate (n x y : Nat) (hx : x < n) (hy : y < n) :
    valAt (List.replicate n (List.replicate n (-1))) x y = -1 := by
  simp [valAt, List.getD_eq_getElem?_getD, List.getElem?_replicate, hx, hy]

theorem count_flatten_replicate (n : Nat) (w : Int) :
    (List.replicate n (List.replicate n ((-1 : Int)))).flatten.count w =
      if w = -1 then n * n else 0 := by
  rw [List.count_flatten, List.map_replicate, List.count_replicate, List.sum_replicate]
  by_cases h : w = -1
  · simp [h, smul_eq_mul]
  · have : ((-1 : Int) == w) = false := by
      simp [h]
      omega
    simp [this, h]

theorem pyGet2_inRange (n : Nat) (b : Board) (x y : Int)
    (hlen : b.length = n) (hrow : ∀ row ∈ b, row.length = n)
    (hx : 0 ≤ x) (hx2 : x < (n : Int)) (hy : 0 ≤ y) (hy2 : y < (n : Int)) :
    pyGet2 b y x = some (valAt b x.toNat y.toNat) := by
  unfold pyGet2
  have h1 : pyNorm b.length y = some y.toNat := by
    unfold pyNorm
    rw [hlen, if_pos ⟨hy, hy2⟩]
  have hyl : y.toNat < b.length := by omega
  have h2 : b.get? y.toNat = some (b.getD y.toNat []) := by
    rw [List.get?_eq_getElem?, List.getElem?_eq_getElem hyl,
      List.getD_eq_getElem?_getD, List.getElem?_eq_getElem hyl]
    rfl
  have hrl : (b.getD y.toNat []).length = n := hrow _ (getD_mem b y.toNat [] hyl)
  have h3 : pyNorm (b.getD y.toNat []).length x = some x.toNat := by
    unfold pyNorm
    rw [hrl, if_pos ⟨hx, hx2⟩]
  have hxl : x.toNat < (b.getD y.toNat []).length := by omega
  have h4 : (b.getD y.toNat []).get? x.toNat = some (valAt b x.toNat y.toNat) := by
    rw [List.get?_eq_getElem?, List.getElem?_eq_getElem hxl]
    unfold valAt
    rw [List.getD_eq_getElem?_getD (b.getD y.toNat []), List.getElem?_eq_getElem hxl]
    rfl
  simp only [h1, h2, h3, h4]

theorem pySet2_inRange (n : Nat) (b : Board) (x y v : Int)
    (hlen : b.length = n) (hrow : ∀ row ∈ b, row.length = n)
    (hx : 0 ≤ x) (hx2 : x < (n : Int)) (hy : 0 ≤ y) (hy2 : y < (n : Int)) :
    pySet2 b y x v = some (setCell b x.toNat y.toNat v) := by
  unfold pySet2
  have h1 : pyNorm b.length y = some y.toNat := by
    unfold pyNorm
    rw [hlen, if_pos ⟨hy, hy2⟩]
  have hyl : y.toNat < b.length := by omega
  have h2 : b.get? y.toNat = some (b.getD y.toNat []) := by
    rw [List.get?_eq_getElem?, List.getElem?_eq_getElem hyl,
      List.getD_eq_getElem?_getD, List.getElem?_eq_getElem hyl]
    rfl
  have hrl : (b.getD y.toNat []).length = n := hrow _ (getD_mem b y.toNat [] hyl)
  have h3 : pyNorm (b.getD y.toNat []).length x = some x.toNat := by
    unfold pyNorm
    rw [hrl, if_pos ⟨hx, hx2⟩]
  simp only [h1, h2, h3]
  rfl

theorem is_valid_iff (n : Nat) (b : Board) (x y : Int)
    (hlen : b.length = n) (hrow : ∀ row ∈ b, row.length = n) :
    is_valid n x y b = true ↔
      0 ≤ x ∧ x < (n : Int) ∧ 0 ≤ y ∧ y < (n : Int) ∧ valAt b x.toNat y.toNat = -1 := by
  unfold is_valid
  simp only [Bool.and_eq_true, decide_eq_true_eq, beq_iff_eq]
  constructor
  · rintro ⟨⟨⟨⟨h1, h2⟩, h3⟩, h4⟩, h5⟩
    rw [pyGet2_inRange n b x y hlen hrow h1 h2 h3 h4] at h5
    exact ⟨h1, h2, h3, h4, by simpa using h5⟩
  · rintro ⟨h1, h2, h3, h4, h5⟩
    rw [pyGet2_inRange n b x y hlen hrow h1 h2 h3 h4, h5]
    exact ⟨⟨⟨⟨h1, h2⟩, h3⟩, h4⟩, rfl⟩

theorem moveLoop_inv (n : Nat) (sh : Nat → List (Int × Int))
    (hsh : ∀ i, ∀ d ∈ sh i, d ∈ KNIGHT_MOVES) :
    ∀ (ms : List Nat) (x y : Int) (b : Board) (si : Nat) (pos : List (Nat × Nat))
      (b2 : Board) (si2 : Nat),
      TourInv n b pos →
      pos.getLast? = some (x.toNat, y.toNat) →
      0 ≤ x → 0 ≤ y →
      ms = List.range' (pos.length + 1) (n * n - pos.length) →
      pos.length ≤ n * n →
      moveLoop n sh ms x y b si = (some b2, si2) →
      ∃ tail, TourInv n b2 (pos ++ tail) ∧ (pos ++ tail).length = n * n := by
  intro ms
  induction ms with
  | nil =>
    intro x y b si pos b2 si2 hinv _ _ _ hms hle hml
    have hz : n * n - pos.length = 0 := (List.range'_eq_nil).mp hms.symm
    simp only [moveLoop, Prod.mk.injEq, Option.some.injEq] at hml
    obtain ⟨hb, _⟩ := hml
    subst hb
    refine ⟨[], by simpa using hinv, ?_⟩
    simp
    omega
  | cons m ms ih =>
    intro x y b si pos b2 si2 hinv hlast hx0 hy0 hms hle hml
    obtain ⟨k, hk⟩ : ∃ k, n * n - pos.length = k + 1 := by
      cases hc : n * n - pos.length with
      | zero =>
        rw [hc] at hms
        exact absurd hms (by simp)
      | succ k => exact ⟨k, rfl⟩
    rw [hk, List.range'_succ] at hms
    have hm : m = pos.length + 1 := (List.cons.injEq _ _ _ _).mp hms |>.1
    have hms2 : ms = List.range' (pos.length + 1 + 1) k := (List.cons.injEq _ _ _ _).mp hms |>.2
    simp only [moveLoop] at hml
    cases hcm : (chooseMove n (sh si) x y b).2 with
    | none =>
      rw [hcm] at hml
      simp at hml
    | some nm =>
      rw [hcm] at hml
      obtain ⟨hv, d, hd, hnm⟩ := chooseMove_valid n (sh si) x y b nm hcm
      obtain ⟨hnx0, hnx1, hny0, hny1, hvm1⟩ :=
        (is_valid_iff n b nm.1 nm.2 hinv.hlen hinv.hrow).mp hv
      have hylen : nm.2.toNat < b.length := by rw [hinv.hlen]; omega
      have hxlen : nm.1.toNat < (b.getD nm.2.toNat []).length := by
        rw [hinv.hrow _ (getD_mem b nm.2.toNat [] hylen)]
        omega
      have hinv2 : TourInv n (setCell b nm.1.toNat nm.2.toNat (m : Int))
          (pos ++ [(nm.1.toNat, nm.2.toNat)]) := by
        refine ⟨?_, ?_, ?_, ?_, ?_, ?_⟩
        · rw [setCell_length, hinv.hlen]
        · exact setCell_rows n b nm.1.toNat nm.2.toNat _ hylen hinv.hrow
        · intro w
          have key := flatten_count_setCell b nm.2.toNat nm.1.toNat (m : Int) w hylen hxlen
          rw [hvm1] at key
          have old := hinv.hcount w
          rw [List.length_append]
          simp only [List.length_singleton]
          push_cast
          split_ifs at key old ⊢ <;> omega
        · intro p hp
          rcases List.mem_append.mp hp with hp | hp
          · exact hinv.hposB p hp
          · have : p = (nm.1.toNat, nm.2.toNat) := by simpa using hp
            subst this
            constructor <;> omega
        · intro i hi
          rw [List.length_append, List.length_singleton] at hi
          by_cases hilt : i < pos.length
          · have hget : (pos ++ [(nm.1.toNat, nm.2.toNat)]).get ⟨i, by simp; omega⟩ =
                pos.get ⟨i, hilt⟩ := by
              simp only [List.get_eq_getElem]
              exact List.getElem_append_left hilt
            rw [hget]
            have hne : ((pos.get ⟨i, hilt⟩).1, (pos.get ⟨i, hilt⟩).2) ≠
                (nm.1.toNat, nm.2.toNat) := by
              intro he
              have hv1 := hinv.hposV i hilt
              have he1 : (pos.get ⟨i, hilt⟩).1 = nm.1.toNat := congrArg Prod.fst he
              have he2 : (pos.get ⟨i, hilt⟩).2 = nm.2.toNat := congrArg Prod.snd he
              rw [he1, he2, hvm1] at hv1
              omega
            rw [valAt_setCell_ne b nm.1.toNat nm.2.toNat _ _ (m : Int) hne]
            exact hinv.hposV i hilt
          · have hieq : i = pos.length := by omega
            have hget : (pos ++ [(nm.1.toNat, nm.2.toNat)]).get ⟨i, by simp; omega⟩ =
                (nm.1.toNat, nm.2.toNat) := by
              simp only [List.get_eq_getElem]
              exact List.getElem_concat_length pos _ i hieq _
            rw [hget]
            rw [valAt_setCell_self b nm.1.toNat nm.2.toNat (m : Int) hylen hxlen]
            rw [hm, hieq]
            push_cast
            ring
        · refine (List.chain'_append).mpr ⟨hinv.hchain, List.chain'_singleton _, ?_⟩
          intro p hp q hq
          rw [hlast] at hp
          have hpe : (x.toNat, y.toNat) = p := by simpa using hp
          have hqe : (nm.1.toNat, nm.2.toNat) = q := by simpa using hq
          subst hpe
          subst hqe
          unfold knightAdj
          have e1 : ((nm.1.toNat : Int) - (x.toNat : Int)) = d.1 := by
            rw [Int.toNat_of_nonneg hnx0, Int.toNat_of_nonneg hx0, hnm]
            ring
          have e2 : ((nm.2.toNat : Int) - (y.toNat : Int)) = d.2 := by
            rw [Int.toNat_of_nonneg hny0, Int.toNat_of_nonneg hy0, hnm]
            ring
          simp only [e1, e2]
          exact hsh si d hd
      have hrec := ih nm.1 nm.2 (setCell b nm.1.toNat nm.2.toNat (m : Int)) (si + 1)
        (pos ++ [(nm.1.toNat, nm.2.toNat)]) b2 si2 hinv2
        (by rw [List.getLast?_concat])
        hnx0 hny0
        (by
          rw [List.length_append, List.length_singleton, hms2]
          congr 1
          omega)
        (by rw [List.length_append, List.length_singleton]; omega)
        hml
      obtain ⟨tail, htinv, htlen⟩ := hrec
      rw [List.append_assoc, List.singleton_append] at htinv htlen
      exact ⟨(nm.1.toNat, nm.2.toNat) :: tail, htinv, htlen⟩

theorem runAttempt_inv (n : Nat) (sx sy : Int) (sh : Nat → List (Int × Int)) (si : Nat)
    (b2 : Board) (si2 : Nat)
    (hsh : ∀ i, ∀ d ∈ sh i, d ∈ KNIGHT_MOVES) (hn : 1 ≤ n)
    (hx : 0 ≤ sx) (hx2 : sx < (n : Int)) (hy : 0 ≤ sy) (hy2 : sy < (n : Int))
    (h : runAttempt sx sy n sh si = .ok (some b2, si2)) :
    ∃ tail, TourInv n b2 ((sx.toNat, sy.toNat) :: tail) ∧
      ((sx.toNat, sy.toNat) :: tail).length = n * n := by
  have hb0len : (List.replicate n (List.replicate n ((-1 : Int)))).length = n := by simp
  have hb0row : ∀ row ∈ List.replicate n (List.replicate n ((-1 : Int))), row.length = n := by
    intro row hr
    rw [List.eq_of_mem_replicate hr]
    simp
  have hset := pySet2_inRange n _ sx sy 1 hb0len hb0row hx hx2 hy hy2
  unfold runAttempt at h
  simp only [hset] at h
  have hml : moveLoop n sh (movesRange n) sx sy
      (setCell (List.replicate n (List.replicate n (-1))) sx.toNat sy.toNat 1) si =
      (some b2, si2) := by
    simpa using h
  have hylen : sy.toNat < (List.replicate n (List.replicate n ((-1 : Int)))).length := by
    simp
    omega
  have hxlen : sx.toNat <
      ((List.replicate n (List.replicate n ((-1 : Int)))).getD sy.toNat []).length := by
    rw [hb0row _ (getD_mem _ sy.toNat [] hylen)]
    omega
  have inv1 : TourInv n (setCell (List.replicate n (List.replicate n (-1)))
      sx.toNat sy.toNat 1) [(sx.toNat, sy.toNat)] := by
    refine ⟨?_, ?_, ?_, ?_, ?_, ?_⟩
    · rw [setCell_length]
      simp
    · exact setCell_rows n _ sx.toNat sy.toNat 1 hylen hb0row
    · intro w
      have key := flatten_count_setCell _ sy.toNat sx.toNat 1 w hylen hxlen
      rw [valAt_replicate n sx.toNat sy.toNat (by omega) (by omega)] at key
      have base := count_flatten_replicate n w
      simp only [List.length_singleton]
      push_cast
      split_ifs at key base ⊢ <;> omega
    · intro p hp
      have : p = (sx.toNat, sy.toNat) := by simpa using hp
      subst this
      constructor <;> omega
    · intro i hi
      have hi0 : i = 0 := by simpa using hi
      subst hi0
      have : ([(sx.toNat, sy.toNat)]).get ⟨0, by simp⟩ = (sx.toNat, sy.toNat) := rfl
      rw [this]
      rw [valAt_setCell_self _ sx.toNat sy.toNat 1 hylen hxlen]
      simp
    · exact List.chain'_singleton _
  have hrec := moveLoop_inv n sh hsh (movesRange n) sx sy _ si [(sx.toNat, sy.toNat)]
    b2 si2 inv1 rfl hx hy
    (by simp only [List.length_singleton, movesRange])
    (by
      simp only [List.length_singleton]
      have := Nat.mul_le_mul hn hn
      omega)
    hml
  obtain ⟨tail, htinv, htlen⟩ := hrec
  rw [List.singleton_append] at htinv htlen
  exact ⟨tail, htinv, htlen⟩

theorem attemptLoop_inv (n : Nat) (sx sy : Int) (sh : Nat → List (Int × Int))
    (hsh : ∀ i, ∀ d ∈ sh i, d ∈ KNIGHT_MOVES) (hn : 1 ≤ n)
    (hx : 0 ≤ sx) (hx2 : sx < (n : Int)) (hy : 0 ≤ sy) (hy2 : sy < (n : Int)) :
    ∀ (k si : Nat) (b2 : Board),
      attemptLoop sx sy n sh k si = .ok (some b2) →
      ∃ tail, TourInv n b2 ((sx.toNat, sy.toNat) :: tail) ∧
        ((sx.toNat, sy.toNat) :: tail).length = n * n := by
  intro k
  induction k with
  | zero =>
    intro si b2 h
    simp [attemptLoop] at h
  | succ k ih =>
    intro si b2 h
    simp only [attemptLoop] at h
    cases hra : runAttempt sx sy n sh si with
    | error e =>
      rw [hra] at h
      simp at h
    | ok p =>
      rw [hra] at h
      rcases p with ⟨ob, si3⟩
      cases ob with
      | some b =>
        have hb : b = b2 := by simpa using h
        subst hb
        exact runAttempt_inv n sx sy sh si b si3 hsh hn hx hx2 hy hy2 hra
      | none =>
        have h2 : attemptLoop sx sy n sh k si3 = .ok (some b2) := by simpa using h
        exact ih si3 b2 h2

theorem generate_success_inv (sx sy : Int) (n : Nat) (ka : Int)
    (sh : Nat → List (Int × Int)) (b : Board)
    (hsh : ∀ i, ∀ d ∈ sh i, d ∈ KNIGHT_MOVES) (hn : 1 ≤ n)
    (hx : 0 ≤ sx) (hx2 : sx < (n : Int)) (hy : 0 ≤ sy) (hy2 : sy < (n : Int))
    (hgen : generate_knights_tour_nxn sx sy n ka sh = .ok (some b)) :
    ∃ tail, TourInv n b ((sx.toNat, sy.toNat) :: tail) ∧
      ((sx.toNat, sy.toNat) :: tail).length = n * n :=
  attemptLoop_inv n sx sy sh hsh hn hx hx2 hy hy2 ka.toNat 0 b hgen

theorem two_le_count_of_get {α : Type} [DecidableEq α] :
    ∀ (l : List α) (w : α) (i j : Nat) (hi : i < l.length) (hj : j < l.length),
      i ≠ j → l.get ⟨i, hi⟩ = w → l.get ⟨j, hj⟩ = w → 2 ≤ l.count w
  | [], w, i, j, hi, _, _, _, _ => absurd hi (by simp)
  | a :: t, w, 0, 0, _, _, hij, _, _ => absurd rfl hij
  | a :: t, w, 0, j + 1, hi, hj, _, hwi, hwj => by
      have ha : a = w := hwi
      have hjt : j < t.length := by simpa using hj
      have hmem : w ∈ t := by
        have := List.get_mem t j hjt
        rwa [show t.get ⟨j, hjt⟩ = w from hwj] at this
      have hpos : 0 < t.count w := List.count_pos_iff.mpr hmem
      have hcnt : (a :: t).count w = t.count w + 1 := by
        rw [List.count_cons, ha]
        simp
      omega
  | a :: t, w, i + 1, 0, hi, hj, _, hwi, hwj => by
      have ha : a = w := hwj
      have hit : i < t.length := by simpa using hi
      have hmem : w ∈ t := by
        have := List.get_mem t i hit
        rwa [show t.get ⟨i, hit⟩ = w from hwi] at this
      have hpos : 0 < t.count w := List.count_pos_iff.mpr hmem
      have hcnt : (a :: t).count w = t.count w + 1 := by
        rw [List.count_cons, ha]
        simp
      omega
  | a :: t, w, i + 1, j + 1, hi, hj, hij, hwi, hwj => by
      have hit : i < t.length := by simpa using hi
      have hjt : j < t.length := by simpa using hj
      have ihc := two_le_count_of_get t w i j hit hjt (by omega) hwi hwj
      rw [List.count_cons]
      omega

theorem two_le_sum_of_get :
    ∀ (l : List Nat) (i j : Nat) (hi : i < l.length) (hj : j < l.length),
      i ≠ j → 1 ≤ l.get ⟨i, hi⟩ → 1 ≤ l.get ⟨j, hj⟩ → 2 ≤ l.sum
  | [], i, j, hi, _, _, _, _ => absurd hi (by simp)
  | a :: t, 0, 0, _, _, hij, _, _ => absurd rfl hij
  | a :: t, 0, j + 1, _, hj, _, h1, h2 => by
      have hjt : j < t.length := by simpa using hj
      have hts : t.get ⟨j, hjt⟩ ≤ t.sum :=
        List.single_le_sum (fun x _ => Nat.zero_le x) _ (List.get_mem t j hjt)
      have h1a : 1 ≤ a := h1
      have h2t : (1 : Nat) ≤ t.get ⟨j, hjt⟩ := h2
      simp only [List.sum_cons]
      omega
  | a :: t, i + 1, 0, hi, _, _, h1, h2 => by
      have hit : i < t.length := by simpa using hi
      have hts : t.get ⟨i, hit⟩ ≤ t.sum :=
        List.single_le_sum (fun x _ => Nat.zero_le x) _ (List.get_mem t i hit)
      have h2a : 1 ≤ a := h2
      have h1t : (1 : Nat) ≤ t.get ⟨i, hit⟩ := h1
      simp only [List.sum_cons]
      omega
  | a :: t, i + 1, j + 1, hi, hj, hij, h1, h2 => by
      have hit : i < t.length := by simpa using hi
      have hjt : j < t.length := by simpa using hj
      have ihs := two_le_sum_of_get t i j hit hjt (by omega) h1 h2
      simp only [List.sum_cons]
      omega

theorem valAt_inj_of_count_le_one (n : Nat) (b : Board) (hlen : b.length = n)
    (hrow : ∀ row ∈ b, row.length = n) (w : Int) (hc : b.flatten.count w ≤ 1) :
    ∀ x1 y1 x2 y2 : Nat, x1 < n → y1 < n → x2 < n → y2 < n →
      valAt b x1 y1 = w → valAt b x2 y2 = w → (x1, y1) = (x2, y2) := by
  intro x1 y1 x2 y2 hx1 hy1 hx2 hy2 hv1 hv2
  by_contra hne
  have hy1l : y1 < b.length := by omega
  have hy2l : y2 < b.length := by omega
  have hx1l : x1 < (b.getD y1 []).length := by
    rw [hrow _ (getD_mem b y1 [] hy1l)]
    omega
  have hx2l : x2 < (b.getD y2 []).length := by
    rw [hrow _ (getD_mem b y2 [] hy2l)]
    omega
  have hflat : b.flatten.count w = (b.map (List.count w)).sum := List.count_flatten w b
  have hglue : ∀ (y : Nat) (hyl : y < b.length),
      (b.map (List.count w)).get ⟨y, by simpa using hyl⟩ = (b.getD y []).count w := by
    intro y hyl
    simp only [List.get_eq_getElem, List.getElem_map]
    congr 1
    rw [List.getD_eq_getElem?_getD, List.getElem?_eq_getElem hyl]
    rfl
  have hcell : ∀ (x y : Nat) (hyl : y < b.length) (hxl : x < (b.getD y []).length),
      valAt b x y = (b.getD y []).get ⟨x, hxl⟩ := by
    intro x y hyl hxl
    unfold valAt
    rw [List.getD_eq_getElem?_getD (b.getD y []), List.getElem?_eq_getElem hxl]
    rfl
  by_cases hyy : y1 = y2
  · subst hyy
    have hxx : x1 ≠ x2 := by
      intro he
      exact hne (by rw [he])
    have h2c : 2 ≤ (b.getD y1 []).count w := by
      apply two_le_count_of_get (b.getD y1 []) w x1 x2 hx1l hx2l hxx
      · rw [← hcell x1 y1 hy1l hx1l]
        exact hv1
      · rw [← hcell x2 y1 hy1l hx2l]
        exact hv2
    have hle2 : (b.getD y1 []).count w ≤ (b.map (List.count w)).sum := by
      apply List.single_le_sum (fun x _ => Nat.zero_le x)
      rw [← hglue y1 hy1l]
      exact List.get_mem _ y1 _
    omega
  · have hm1 : 1 ≤ (b.map (List.count w)).get ⟨y1, by simpa using hy1l⟩ := by
      rw [hglue y1 hy1l]
      apply List.count_pos_iff.mpr
      have := List.get_mem (b.getD y1 []) x1 hx1l
      rwa [← hcell x1 y1 hy1l hx1l, hv1] at this
    have hm2 : 1 ≤ (b.map (List.count w)).get ⟨y2, by simpa using hy2l⟩ := by
      rw [hglue y2 hy2l]
      apply List.count_pos_iff.mpr
      have := List.get_mem (b.getD y2 []) x2 hx2l
      rwa [← hcell x2 y2 hy2l hx2l, hv2] at this
    have h2s : 2 ≤ (b.map (List.count w)).sum :=
      two_le_sum_of_get (b.map (List.count w)) y1 y2 (by simpa using hy1l)
        (by simpa using hy2l) hyy hm1 hm2
    omega

/-- C2: every Board returned by a successful generate call (in-range start,
board_size ≥ 1) holds exactly a permutation of 1..board_size²: the board is
n×n, every cell value lies in [1, n²] and all cell values are distinct; in
particular no cell is left UNVISITED (-1). -/
theorem generate_success_permutation (start_x start_y : Int) (board_size : Nat)
    (max_attempts : Int) (shuffles : Nat → List (Int × Int)) (b : Board)
    (hsh : ∀ i, ∀ d ∈ shuffles i, d ∈ KNIGHT_MOVES)
    (hn : 1 ≤ board_size)
    (hx : 0 ≤ start_x) (hx2 : start_x < (board_size : Int))
    (hy : 0 ≤ start_y) (hy2 : start_y < (board_size : Int))
    (hgen : generate_knights_tour_nxn start_x start_y board_size max_attempts shuffles =
      .ok (some b)) :
    b.length = board_size ∧ (∀ row ∈ b, row.length = board_size) ∧
      (∀ v ∈ b.flatten, 1 ≤ v ∧ v ≤ ((board_size * board_size : Nat) : Int)) ∧
      b.flatten.Nodup := by
  obtain ⟨tail, hinv, hlen⟩ := generate_success_inv start_x start_y board_size max_attempts
    shuffles b hsh hn hx hx2 hy hy2 hgen
  refine ⟨hinv.hlen, hinv.hrow, ?_, ?_⟩
  · intro v hv
    have hpos : 0 < b.flatten.count v := List.count_pos_iff.mpr hv
    have hc := hinv.hcount v
    rw [hlen] at hc
    split_ifs at hc with h1 h2
    · exact h1
    · omega
    · omega
  · rw [List.nodup_iff_count_le_one]
    intro v
    have hc := hinv.hcount v
    rw [hlen] at hc
    split_ifs at hc <;> omega

theorem generate_success_permutation_witness :
    ([[1]] : Board).length = 1 ∧ (∀ row ∈ ([[1]] : Board), row.length = 1) ∧
      (∀ v ∈ ([[1]] : Board).flatten, 1 ≤ v ∧ v ≤ ((1 * 1 : Nat) : Int)) ∧
      ([[1]] : Board).flatten.Nodup :=
  generate_success_permutation 0 0 1 100 (fun _ => KNIGHT_MOVES) [[1]]
    (fun _ d hd => hd) (by decide) (by decide) (by decide) (by decide) (by decide) rfl

/-- C3: in every Board returned by a successful generate call, for every
pair of consecutive move numbers k, k+1 with 1 ≤ k < n², the cell holding k
and the cell holding k+1 are a knight's move apart: their coordinate
difference is one of the 8 offsets in KNIGHT_MOVES. -/
theorem generate_success_moves_legal (start_x start_y : Int) (board_size : Nat)
    (max_attempts : Int) (shuffles : Nat → List (Int × Int)) (b : Board)
    (hsh : ∀ i, ∀ d ∈ shuffles i, d ∈ KNIGHT_MOVES)
    (hn : 1 ≤ board_size)
    (hx : 0 ≤ start_x) (hx2 : start_x < (board_size : Int))
    (hy : 0 ≤ start_y) (hy2 : start_y < (board_size : Int))
    (hgen : generate_knights_tour_nxn start_x start_y board_size max_attempts shuffles =
      .ok (some b)) :
    ∀ k : Nat, 1 ≤ k → k < board_size * board_size →
      ∀ x1 y1 x2 y2 : Nat, x1 < board_size → y1 < board_size → x2 < board_size →
        y2 < board_size → valAt b x1 y1 = (k : Int) → valAt b x2 y2 = (k : Int) + 1 →
        ((x2 : Int) - (x1 : Int), (y2 : Int) - (y1 : Int)) ∈ KNIGHT_MOVES := by
  intro k hk1 hk2 x1 y1 x2 y2 hx1b hy1b hx2b hy2b hv1 hv2
  obtain ⟨tail, hinv, hlen⟩ := generate_success_inv start_x start_y board_size max_attempts
    shuffles b hsh hn hx hx2 hy hy2 hgen
  obtain ⟨j, rfl⟩ : ∃ j, k = j + 1 := ⟨k - 1, by omega⟩
  have hj1 : j < ((start_x.toNat, start_y.toNat) :: tail).length := by omega
  have hj2 : j + 1 < ((start_x.toNat, start_y.toNat) :: tail).length := by omega
  have hcle : ∀ v : Int, b.flatten.count v ≤ 1 := by
    intro v
    have hc := hinv.hcount v
    split_ifs at hc <;> omega
  have hval1 := hinv.hposV j hj1
  have hval2 := hinv.hposV (j + 1) hj2
  have hcast : ((j + 1 : Nat) : Int) = (j : Int) + 1 := by push_cast; ring
  rw [hcast] at hv1 hv2
  rw [hcast] at hval2
  have hb1 := hinv.hposB _ (List.get_mem _ j hj1)
  have hb2 := hinv.hposB _ (List.get_mem _ (j + 1) hj2)
  have heq1 : (x1, y1) = ((((start_x.toNat, start_y.toNat) :: tail).get ⟨j, hj1⟩).1,
      (((start_x.toNat, start_y.toNat) :: tail).get ⟨j, hj1⟩).2) :=
    valAt_inj_of_count_le_one board_size b hinv.hlen hinv.hrow ((j : Int) + 1)
      (hcle _) x1 y1 _ _ hx1b hy1b hb1.1 hb1.2 hv1 hval1
  have heq2 : (x2, y2) = ((((start_x.toNat, start_y.toNat) :: tail).get ⟨j + 1, hj2⟩).1,
      (((start_x.toNat, start_y.toNat) :: tail).get ⟨j + 1, hj2⟩).2) :=
    valAt_inj_of_count_le_one board_size b hinv.hlen hinv.hrow ((j : Int) + 1 + 1)
      (hcle _) x2 y2 _ _ hx2b hy2b hb2.1 hb2.2 hv2 hval2
  have hchain := (List.chain'_iff_get.mp hinv.hchain) j (by omega)
  have e1 : x1 = (((start_x.toNat, start_y.toNat) :: tail).get ⟨j, hj1⟩).1 :=
    congrArg Prod.fst heq1
  have e2 : y1 = (((start_x.toNat, start_y.toNat) :: tail).get ⟨j, hj1⟩).2 :=
    congrArg Prod.snd heq1
  have e3 : x2 = (((start_x.toNat, start_y.toNat) :: tail).get ⟨j + 1, hj2⟩).1 :=
    congrArg Prod.fst heq2
  have e4 : y2 = (((start_x.toNat, start_y.toNat) :: tail).get ⟨j + 1, hj2⟩).2 :=
    congrArg Prod.snd heq2
  rw [e1, e2, e3, e4]
  exact hchain

theorem generate_success_moves_legal_witness :
    ((((2 : Nat) : Int)) - (((0 : Nat) : Int)), (((1 : Nat) : Int)) - (((0 : Nat) : Int))) ∈
      KNIGHT_MOVES :=
  generate_success_moves_legal 0 0 5 100 (fun _ => KNIGHT_MOVES)
    [[1, 14, 9, 20, 3], [24, 19, 2, 15, 10], [13, 8, 25, 4, 21],
      [18, 23, 6, 11, 16], [7, 12, 17, 22, 5]]
    (fun _ d hd => hd) (by decide) (by decide) (by decide) (by decide) (by decide) rfl
    1 (by decide) (by decide) 0 0 2 1 (by decide) (by decide) (by decide) (by decide)
    (by decide) (by decide)

/-- C4: in every Board returned by a successful generate call, the cell at
the caller-specified start coordinate holds the value 1: the start is move 1
and is never overwritten during the search. -/
theorem generate_success_start_one (start_x start_y : Int) (board_size : Nat)
    (max_attempts : Int) (shuffles : Nat → List (Int × Int)) (b : Board)
    (hsh : ∀ i, ∀ d ∈ shuffles i, d ∈ KNIGHT_MOVES)
    (hn : 1 ≤ board_size)
    (hx : 0 ≤ start_x) (hx2 : start_x < (board_size : Int))
    (hy : 0 ≤ start_y) (hy2 : start_y < (board_size : Int))
    (hgen : generate_knights_tour_nxn start_x start_y board_size max_attempts shuffles =
      .ok (some b)) :
    valAt b start_x.toNat start_y.toNat = 1 := by
  obtain ⟨tail, hinv, _⟩ := generate_success_inv start_x start_y board_size max_attempts
    shuffles b hsh hn hx hx2 hy hy2 hgen
  have h0 : 0 < ((start_x.toNat, start_y.toNat) :: tail).length := by simp
  have hv := hinv.hposV 0 h0
  have hg : ((start_x.toNat, start_y.toNat) :: tail).get ⟨0, h0⟩ =
      (start_x.toNat, start_y.toNat) := rfl
  rw [hg] at hv
  simpa using hv

theorem generate_success_start_one_witness :
    valAt [[1]] (Int.toNat 0) (Int.toNat 0) = 1 :=
  generate_success_start_one 0 0 1 100 (fun _ => KNIGHT_MOVES) [[1]]
    (fun _ d hd => hd) (by decide) (by decide) (by decide) (by decide) (by decide) rfl

theorem attemptLoop_characterization (sx sy : Int) (n : Nat)
    (sh : Nat → List (Int × Int)) :
    ∀ (k si : Nat),
      (attemptLoop sx sy n sh k si = .ok none ↔
        ∀ i < k, ∃ si2,
          runAttempt sx sy n sh ((siStep sx sy n sh)^[i] si) = .ok (none, si2)) ∧
      (∀ b, attemptLoop sx sy n sh k si = .ok (some b) →
        ∃ i, i < k ∧
          (∃ si2, runAttempt sx sy n sh ((siStep sx sy n sh)^[i] si) = .ok (some b, si2)) ∧
          ∀ j < i, ∃ si2,
            runAttempt sx sy n sh ((siStep sx sy n sh)^[j] si) = .ok (none, si2)) := by
  intro k
  induction k with
  | zero =>
    intro si
    constructor
    · constructor
      · intro _ i hi
        omega
      · intro _
        rfl
    · intro b h
      simp [attemptLoop] at h
  | succ k ih =>
    intro si
    constructor
    · cases hra : runAttempt sx sy n sh si with
      | error e =>
        constructor
        · intro h
          simp [attemptLoop, hra] at h
        · intro hall
          obtain ⟨si2, hsi2⟩ := hall 0 (by omega)
          rw [Function.iterate_zero_apply, hra] at hsi2
          exact absurd hsi2 (by simp)
      | ok p =>
        rcases p with ⟨ob, si3⟩
        cases ob with
        | some bb =>
          constructor
          · intro h
            simp [attemptLoop, hra] at h
          · intro hall
            obtain ⟨si2, hsi2⟩ := hall 0 (by omega)
            rw [Function.iterate_zero_apply, hra] at hsi2
            exact absurd hsi2 (by simp)
        | none =>
          have hstep : siStep sx sy n sh si = si3 := by
            simp [siStep, hra]
          have hloop : attemptLoop sx sy n sh (k + 1) si = attemptLoop sx sy n sh k si3 := by
            simp [attemptLoop, hra]
          rw [hloop]
          constructor
          · intro h
            intro i hi
            cases i with
            | zero =>
              rw [Function.iterate_zero_apply]
              exact ⟨si3, hra⟩
            | succ i =>
              have hr := ((ih si3).1.mp h) i (by omega)
              rw [Function.iterate_succ_apply, hstep]
              exact hr
          · intro hall
            apply (ih si3).1.mpr
            intro i hi
            have hr := hall (i + 1) (by omega)
            rw [Function.iterate_succ_apply, hstep] at hr
            exact hr
    · intro b h
      cases hra : runAttempt sx sy n sh si with
      | error e =>
        simp [attemptLoop, hra] at h
      | ok p =>
        rcases p with ⟨ob, si3⟩
        cases ob with
        | some bb =>
          have hbb : bb = b := by
            simp [attemptLoop, hra] at h
            exact h
          subst hbb
          refine ⟨0, by omega, ⟨si3, by rw [Function.iterate_zero_apply]; exact hra⟩, ?_⟩
          intro j hj
          omega
        | none =>
          have hstep : siStep sx sy n sh si = si3 := by
            simp [siStep, hra]
          have h2 : attemptLoop sx sy n sh k si3 = .ok (some b) := by
            simpa [attemptLoop, hra] using h
          obtain ⟨i, hik, hsucc, hprev⟩ := (ih si3).2 b h2
          refine ⟨i + 1, by omega, ?_, ?_⟩
          · rw [Function.iterate_succ_apply, hstep]
            exact hsucc
          · intro j hj
            cases j with
            | zero =>
              rw [Function.iterate_zero_apply]
              exact ⟨si3, hra⟩
            | succ j =>
              have hr := hprev j (by omega)
              rw [Function.iterate_succ_apply, hstep]
              exact hr

/-- C6: generate always terminates with a definite outcome reached through
at most `max_attempts` independent attempts: it returns FAILURE (`None`)
exactly when every one of the `max_attempts` attempts dead-ends (is
abandoned, returning no board), and it returns a board exactly when some
attempt `i` below `max_attempts` succeeds with that board while every earlier
attempt dead-ended — the first success is returned immediately and no
further attempt runs. -/
theorem generate_attempts_characterization (start_x start_y : Int) (board_size : Nat)
    (max_attempts : Int) (shuffles : Nat → List (Int × Int)) :
    (generate_knights_tour_nxn start_x start_y board_size max_attempts shuffles = .ok none ↔
      ∀ i < max_attempts.toNat, ∃ si2,
        runAttempt start_x start_y board_size shuffles
          (siSeq start_x start_y board_size shuffles i) = .ok (none, si2)) ∧
    (∀ b, generate_knights_tour_nxn start_x start_y board_size max_attempts shuffles =
        .ok (some b) →
      ∃ i, i < max_attempts.toNat ∧
        (∃ si2, runAttempt start_x start_y board_size shuffles
          (siSeq start_x start_y board_size shuffles i) = .ok (some b, si2)) ∧
        ∀ j < i, ∃ si2, runAttempt start_x start_y board_size shuffles
          (siSeq start_x start_y board_size shuffles j) = .ok (none, si2)) := by
  unfold generate_knights_tour_nxn siSeq
  exact attemptLoop_characterization start_x start_y board_size shuffles max_attempts.toNat 0

theorem generate_attempts_characterization_witness :
    ∃ i, i < (100 : Int).toNat ∧
      (∃ si2, runAttempt 0 0 1 (fun _ => KNIGHT_MOVES)
        (siSeq 0 0 1 (fun _ => KNIGHT_MOVES) i) = .ok (some [[1]], si2)) ∧
      ∀ j < i, ∃ si2, runAttempt 0 0 1 (fun _ => KNIGHT_MOVES)
        (siSeq 0 0 1 (fun _ => KNIGHT_MOVES) j) = .ok (none, si2) :=
  (generate_attempts_characterization 0 0 1 100 (fun _ => KNIGHT_MOVES)).2 [[1]] rfl

theorem foldl_nested_eq (n : Nat) (b : Board) :
    ∀ (ys : List Nat) (init : List (Option (Nat × Nat))),
      ys.foldl (fun acc y => (List.range n).foldl
          (fun acc2 x => projStep b acc2 (x, y)) acc) init =
        (ys.flatMap (fun y => (List.range n).map (fun x => (x, y)))).foldl
          (projStep b) init := by
  intro ys
  induction ys with
  | nil =>
    intro init
    rfl
  | cons y ys ih =>
    intro init
    simp only [List.foldl_cons, List.flatMap_cons, List.foldl_append, List.foldl_map]
    exact ih _

theorem move_positions_eq_scan (n : Nat) (b : Board) :
    move_positions n b =
      (scanCells n).foldl (projStep b) (List.replicate (n * n) none) := by
  unfold move_positions scanCells
  exact foldl_nested_eq n b (List.range n) (List.replicate (n * n) none)

theorem foldl_projStep_length (b : Board) :
    ∀ (cs : List (Nat × Nat)) (acc : List (Option (Nat × Nat))),
      (cs.foldl (projStep b) acc).length = acc.length := by
  intro cs
  induction cs with
  | nil =>
    intro acc
    rfl
  | cons c cs ih =>
    intro acc
    rw [List.foldl_cons, ih]
    by_cases h : 0 < valAt b c.1 c.2
    · simp [projStep, h]
    · simp [projStep, h]

theorem mem_scanCells (n : Nat) (c : Nat × Nat) :
    c ∈ scanCells n ↔ c.1 < n ∧ c.2 < n := by
  unfold scanCells
  constructor
  · intro h
    obtain ⟨y, hy, hc⟩ := List.mem_flatMap.mp h
    obtain ⟨x, hx, he⟩ := List.mem_map.mp hc
    rw [← he]
    exact ⟨List.mem_range.mp hx, List.mem_range.mp hy⟩
  · intro ⟨h1, h2⟩
    apply List.mem_flatMap.mpr
    refine ⟨c.2, List.mem_range.mpr h2, ?_⟩
    apply List.mem_map.mpr
    exact ⟨c.1, List.mem_range.mpr h1, rfl⟩

theorem foldl_projStep_get (b : Board) :
    ∀ (cs : List (Nat × Nat)) (acc : List (Option (Nat × Nat)))
      (c0 : Nat × Nat) (i : Nat),
      c0 ∈ cs → 0 < valAt b c0.1 c0.2 → (valAt b c0.1 c0.2).toNat - 1 = i →
      i < acc.length →
      (∀ c ∈ cs, 0 < valAt b c.1 c.2 → (valAt b c.1 c.2).toNat - 1 = i → c = c0) →
      (cs.foldl (projStep b) acc).get? i = some (some c0) := by
  intro cs
  induction cs using List.reverseRecOn with
  | nil =>
    intro acc c0 i hmem
    exact absurd hmem (by simp)
  | append_singleton cs a ih =>
    intro acc c0 i hmem hpos hidx hlen huniq
    rw [List.foldl_append, List.foldl_cons, List.foldl_nil]
    by_cases ha : 0 < valAt b a.1 a.2 ∧ (valAt b a.1 a.2).toNat - 1 = i
    · have hac0 : a = c0 := huniq a (by simp) ha.1 ha.2
      subst hac0
      have hq : projStep b (cs.foldl (projStep b) acc) a =
          (cs.foldl (projStep b) acc).set i (some a) := by
        unfold projStep
        rw [if_pos ha.1, ha.2]
      rw [hq]
      rw [List.get?_eq_getElem?,
        List.getElem?_set_self (by rw [foldl_projStep_length]; omega)]
    · have hc0cs : c0 ∈ cs := by
        rcases List.mem_append.mp hmem with h | h
        · exact h
        · have : c0 = a := by simpa using h
          subst this
          exact absurd ⟨hpos, hidx⟩ ha
      have hrec := ih acc c0 i hc0cs hpos hidx hlen
        (fun c hc h1 h2 => huniq c (List.mem_append.mpr (Or.inl hc)) h1 h2)
      by_cases hap : 0 < valAt b a.1 a.2
      · have hai : (valAt b a.1 a.2).toNat - 1 ≠ i := by
          intro he
          exact ha ⟨hap, he⟩
        have hq : projStep b (cs.foldl (projStep b) acc) a =
            (cs.foldl (projStep b) acc).set ((valAt b a.1 a.2).toNat - 1) (some a) := by
          unfold projStep
          rw [if_pos hap]
        rw [hq]
        rw [List.get?_eq_getElem?, List.getElem?_set_ne hai, ← List.get?_eq_getElem?]
        exact hrec
      · have hq : projStep b (cs.foldl (projStep b) acc) a =
            cs.foldl (projStep b) acc := by
          unfold projStep
          rw [if_neg hap]
        rw [hq]
        exact hrec

/-- C8: for a completed n×n Board whose cells are a permutation of 1..n²,
the projection built by `start_tour` has length n² and stores at index
`k - 1` exactly the coordinate `(x, y)` of the cell whose value is `k`,
for every `k` in `[1, n²]`. -/
theorem move_positions_correct (n : Nat) (b : Board)
    (hlen : b.length = n) (hrow : ∀ row ∈ b, row.length = n)
    (hperm : b.flatten.Perm ((List.range' 1 (n * n)).map (fun m : Nat => (m : Int)))) :
    (move_positions n b).length = n * n ∧
    ∀ k : Nat, 1 ≤ k → k ≤ n * n →
      ∀ x y : Nat, x < n → y < n → valAt b x y = (k : Int) →
        (move_positions n b).get? (k - 1) = some (some (x, y)) := by
  constructor
  · rw [move_positions_eq_scan, foldl_projStep_length]
    simp
  · intro k hk1 hk2 x y hx hy hv
    rw [move_positions_eq_scan]
    have hcnt : b.flatten.count ((k : Nat) : Int) = 1 := by
      rw [hperm.count_eq]
      apply List.count_eq_one_of_mem
      · apply List.Nodup.map
        · intro a1 a2 h12
          exact Int.natCast_inj.mp h12
        · exact List.nodup_range' 1 (n * n)
      · apply List.mem_map.mpr
        exact ⟨k, List.mem_range'_1.mpr ⟨hk1, by omega⟩, rfl⟩
    apply foldl_projStep_get b (scanCells n) _ (x, y) (k - 1)
    · exact (mem_scanCells n (x, y)).mpr ⟨hx, hy⟩
    · show 0 < valAt b x y
      rw [hv]
      exact Int.natCast_pos.mpr (by omega)
    · show (valAt b x y).toNat - 1 = k - 1
      rw [hv, Int.toNat_natCast]
    · simp only [List.length_replicate]
      omega
    · intro c hc hcpos hcidx
      have hcb := (mem_scanCells n c).mp hc
      have hcv : valAt b c.1 c.2 = ((k : Nat) : Int) := by omega
      have hinj := valAt_inj_of_count_le_one n b hlen hrow ((k : Nat) : Int)
        (by omega) c.1 c.2 x y hcb.1 hcb.2 hx hy hcv hv
      calc c = (c.1, c.2) := by simp
        _ = (x, y) := hinj

theorem move_positions_correct_witness :
    (move_positions 1 [[1]]).get? (1 - 1) = some (some (0, 0)) :=
  (move_positions_correct 1 [[1]] (by decide) (by decide) (by decide)).2
    1 (by decide) (by decide) 0 0 (by decide) (by decide) (by decide)
